import Mathlib

/-!
Shallow embedding of the bxgateway compact-block decompression engine
(`src/bxgateway/messages/btc/compact_block_decompression.py`) and of the
block dispatch handler
(`src/bxgateway/connections/abstract_blockchain_connection_protocol.py`).

Modelling conventions:
* a byte string is a `List Nat` (one entry per byte);
* the display-order hex strings that the transaction service hands out are
  modelled as the raw byte strings they encode (hex encoding is a bijection,
  and the source compares them only for equality and membership);
* the external cryptographic primitives (`hashlib.sha256`, `csiphash.siphash24`)
  are abstract function parameters;
* a Python `dict` is modelled as a lookup function, insertion overwrites;
* a Python exception escaping a function is modelled as `Except.error`
  (for the decompressor) or `none` (for the recovery resolver);
* in-place mutation of the caller's `block_transactions` list is modelled by
  returning the final state of that list alongside the result.
-/

namespace BxGateway

/-- A byte string; each entry is one byte value. -/
abbrev Bytes := List Nat

/-- A block hash, abstracted to its identity (the dispatch code only compares
hashes for equality). -/
abbrev BlockHash := Nat

/-- Little-endian encoding of `n` into `k` bytes, as written by `struct.pack`
with the `<L` format. A value that does not fit is truncated modulo `2 ^ (8 * k)`
(the Python `struct.pack` raises there instead; callers in the source only pass
values that fit in the field). -/
def leBytes : Nat → Nat → Bytes
  | 0, _ => []
  | k + 1, n => n % 256 :: leBytes k (n / 256)

/-- Little-endian numeric value of a byte string. -/
def leDecode : Bytes → Nat
  | [] => 0
  | b :: rest => b + 256 * leDecode rest

/-- Modelled from the spec: `get_sizeof_btc_varint` (from
`bxgateway.messages.btc.btc_messages_util`, not under `src/`) follows the
Bitcoin `CompactSize` rule of spec section 4.1. -/
def get_sizeof_btc_varint (n : Nat) : Nat :=
  if n < 0xFD then 1 else if n ≤ 0xFFFF then 3 else if n ≤ 0xFFFFFFFF then 5 else 9

/-- Modelled from the spec: `pack_int_to_btc_varint` (from
`bxgateway.messages.btc.btc_messages_util`, not under `src/`) writes the
`CompactSize` encoding of spec section 4.1, little-endian. -/
def pack_int_to_btc_varint (n : Nat) : Bytes :=
  if n < 0xFD then [n]
  else if n ≤ 0xFFFF then 0xFD :: leBytes 2 n
  else if n ≤ 0xFFFFFFFF then 0xFE :: leBytes 4 n
  else 0xFF :: leBytes 8 n

/-- Modelled from the spec: `BtcMessageType.BLOCK` (not under `src/`) is the
ASCII literal `block`, zero-padded to 12 bytes by the `12s` directive of
`struct.pack_into("<L12sL", ...)`. -/
def blockCommand : Bytes := [0x62, 0x6c, 0x6f, 0x63, 0x6b] ++ List.replicate 7 0

/-- Modelled from the spec: `crypto.bitcoin_hash` (from `bxcommon`, not under
`src/`) is the double SHA-256 whose first 4 bytes are the envelope checksum
(spec section 4.1, `btc_checksum`). The SHA-256 function itself is an external
library and is kept abstract. -/
def bitcoin_hash (sha256 : Bytes → Bytes) (b : Bytes) : Bytes := sha256 (sha256 b)

/-- Shared assembly tail of both decompression functions (source lines 108-121
and 167-182): build the 24-byte header with `struct.pack_into("<L12sL", ...)`
(which leaves the 4 checksum bytes zero), prepend it to the payload, then patch
bytes 20..24 with the first 4 bytes of the double SHA-256 of the payload
(`BTC_HEADER_MINUS_CHECKSUM = 20`, `BTC_HDR_COMMON_OFF = 24`). At patch time
the source's `size` variable holds the payload length. -/
def assembleBlockMessage (sha256 : Bytes → Bytes) (magic : Nat) (payload : Bytes) : Bytes :=
  let msg_header := leBytes 4 magic ++ blockCommand ++ leBytes 4 payload.length ++
    List.replicate 4 0
  let block_msg_bytes := msg_header ++ payload
  let checksum := (bitcoin_hash sha256 payload).take 4
  block_msg_bytes.take 20 ++ checksum ++ block_msg_bytes.drop 24

/-- The fields of `CompactBlockBtcMessage` that `compact_block_decompression.py`
reads: `block_header()`, `short_nonce_buf()`, `short_ids()` (a list of short-id
hex strings, modelled as the byte strings they encode) and `prefilled_txns()`
(absolute index, transaction bytes). -/
structure CompactBlockBtcMessage where
  block_header : Bytes
  short_nonce_buf : Bytes
  short_ids : List Bytes
  prefilled_txns : List (Nat × Bytes)
deriving DecidableEq

/-- The two methods of the transaction service that the decompressor uses:
`get_all_transaction_hashes()` (an enumeration, display-order hashes) and
`get_transaction_by_hash`. -/
structure TransactionService where
  hashes : List Bytes
  contents : Bytes → Bytes

/-- Source lines 17-21: the `NamedTuple` returned by `decompress_compact_block`. -/
structure CompactBlockDecompressionResult where
  success : Bool
  block_btc_message : Option Bytes
  block_transactions : Option (List (Option Bytes))
  missing_transactions_indices : Option (List Nat)
deriving DecidableEq

/-- Source lines 24-26: the `NamedTuple` returned by
`decompress_recovered_compact_block`. -/
structure CompactBlockRecoveryResult where
  success : Bool
  block_btc_message : Option Bytes
deriving DecidableEq

/-- Source lines 47-51: the SipHash key is the first 16 bytes of the SHA-256
digest of `block_header` followed by `short_nonce_buf` (feeding the two buffers
to one running hash equals hashing their concatenation). -/
def compact_block_sip_key (sha256 : Bytes → Bytes) (msg : CompactBlockBtcMessage) : Bytes :=
  (sha256 (msg.block_header ++ msg.short_nonce_buf)).take 16

/-- Source lines 185-186: `_compute_short_id` takes the first 6 bytes of
`siphash24(key, tx_hash)`. -/
def _compute_short_id (siphash24 : Bytes → Bytes → Bytes) (key : Bytes) (tx_hash : Bytes) :
    Bytes :=
  (siphash24 key tx_hash).take 6

/-- One Python `dict` insertion (`short_id_to_tx_hash[sid] = tx`): the dict is a
lookup function and insertion overwrites any previous binding. -/
def sidMapInsert (m : Bytes → Option Bytes) (sid : Bytes) (tx : Bytes) :
    Bytes → Option Bytes :=
  fun s => if s = sid then some tx else m s

/-- One iteration of the loop at source lines 57-63: byte-reverse the
display-order hash (`convert.hex_to_bytes(tx_hash_str)[::-1]`), compute its
short id, and record `sid -> tx` when the short id occurs in the message's
short-id list. -/
def sidMapStep (siphash24 : Bytes → Bytes → Bytes) (key : Bytes) (short_ids : List Bytes)
    (contents : Bytes → Bytes) (m : Bytes → Option Bytes) (tx_hash_str : Bytes) :
    Bytes → Option Bytes :=
  let tx_hash_bytes := tx_hash_str.reverse
  let tx_short_id := _compute_short_id siphash24 key tx_hash_bytes
  if tx_short_id ∈ short_ids then sidMapInsert m tx_short_id (contents tx_hash_str) else m

/-- Source lines 55-63: fold the per-hash step over the cache enumeration,
starting from the empty dict. -/
def build_short_id_map (siphash24 : Bytes → Bytes → Bytes) (key : Bytes)
    (short_ids : List Bytes) (svc : TransactionService) : Bytes → Option Bytes :=
  svc.hashes.foldl (sidMapStep siphash24 key short_ids svc.contents) (fun _ => none)

/-- Source lines 189-194: return the transaction of the first prefilled entry
whose absolute index equals `index`, if any. -/
def _get_prefilled_tx_by_index : List (Nat × Bytes) → Nat → Option Bytes
  | [], _ => none
  | p :: rest, index => if p.1 = index then some p.2 else _get_prefilled_tx_by_index rest index

/-- Modelled from the spec: section 7 classifies a duplicate or out-of-range
prefilled index as `MalformedCompactBlock`. In the source this surfaces as an
`IndexError` raised by `short_ids[short_tx_index]` at line 89; the caller that
catches it and drops the message is not under `src/`. -/
inductive DecompressionError where
  | malformedCompactBlock
deriving DecidableEq

/-- Source lines 83-103: the slot-filling loop. `idxs` is the remaining part of
`range(total_txs_count)` and the `Nat` argument is `short_tx_index`. Produces
the `block_transactions` slot list and the `missing_transactions_indices` list;
errors where the Python raises `IndexError`. -/
def fillLoop (sid_map : Bytes → Option Bytes) (prefilled_txs : List (Nat × Bytes))
    (short_ids : List Bytes) :
    List Nat → Nat → Except DecompressionError (List (Option Bytes) × List Nat)
  | [], _ => .ok ([], [])
  | index :: rest, short_tx_index =>
    match _get_prefilled_tx_by_index prefilled_txs index with
    | some prefilled_tx =>
      (fillLoop sid_map prefilled_txs short_ids rest short_tx_index).map
        (fun r => (some prefilled_tx :: r.1, r.2))
    | none =>
      if h : short_tx_index < short_ids.length then
        match sid_map (short_ids.get ⟨short_tx_index, h⟩) with
        | some short_tx =>
          (fillLoop sid_map prefilled_txs short_ids rest (short_tx_index + 1)).map
            (fun r => (some short_tx :: r.1, r.2))
        | none =>
          (fillLoop sid_map prefilled_txs short_ids rest (short_tx_index + 1)).map
            (fun r => (none :: r.1, index :: r.2))
      else .error .malformedCompactBlock

/-- Source lines 35-123: `decompress_compact_block`. The source appends a
transaction to `block_msg_parts` exactly when it appends it to
`block_transactions` (in the same slot order), so the serialized payload is the
header, the tx-count varint, and the concatenation of the filled slots. -/
def decompress_compact_block (sha256 : Bytes → Bytes) (siphash24 : Bytes → Bytes → Bytes)
    (magic : Nat) (msg : CompactBlockBtcMessage) (transaction_service : TransactionService) :
    Except DecompressionError CompactBlockDecompressionResult :=
  let key := compact_block_sip_key sha256 msg
  let short_id_to_tx_hash := build_short_id_map siphash24 key msg.short_ids transaction_service
  let total_txs_count := msg.prefilled_txns.length + msg.short_ids.length
  (fillLoop short_id_to_tx_hash msg.prefilled_txns msg.short_ids
      (List.range total_txs_count) 0).map
    (fun r =>
      if 0 < r.2.length then
        ⟨false, none, some r.1, some r.2⟩
      else
        let payload := msg.block_header ++ pack_int_to_btc_varint total_txs_count ++
          (r.1.filterMap id).flatten
        ⟨true, some (assembleBlockMessage sha256 magic payload), none, none⟩)

/-- Source lines 146-148: write `recovered_transactions[i]` into slot
`missing_indices[i]`, in order (later writes overwrite earlier ones). -/
def writeRecovered (block_transactions : List (Option Bytes)) (missing_indices : List Nat)
    (recovered_transactions : List Bytes) : List (Option Bytes) :=
  (missing_indices.zip recovered_transactions).foldl
    (fun bt p => bt.set p.1 (some p.2)) block_transactions

/-- Source lines 126-182: `decompress_recovered_compact_block`. Returns the
result together with the final state of the caller's `block_transactions` list
(the source mutates it in place). `none` models an uncaught Python exception:
an out-of-range write (`IndexError`), or a `None` still among the transactions
when their lengths are summed (`TypeError`). -/
def decompress_recovered_compact_block (sha256 : Bytes → Bytes) (magic : Nat)
    (msg : CompactBlockBtcMessage) (block_transactions : List (Option Bytes))
    (missing_indices : List Nat) (recovered_transactions : List Bytes) :
    Option (CompactBlockRecoveryResult × List (Option Bytes)) :=
  if missing_indices.length ≠ recovered_transactions.length then
    some (⟨false, none⟩, block_transactions)
  else if missing_indices.any (fun i => decide (block_transactions.length ≤ i)) then
    none
  else
    let bt := writeRecovered block_transactions missing_indices recovered_transactions
    if bt.all Option.isSome then
      let payload := msg.block_header ++ pack_int_to_btc_varint bt.length ++
        (bt.filterMap id).flatten
      some (⟨true, some (assembleBlockMessage sha256 magic payload)⟩, bt)
    else none

/-- The spec's SipHash-key derivation, stated from the words of spec section 4.3
step 1: the first 16 bytes of `SHA256(block_header concat short_nonce)`. -/
def specSipKey (sha256 : Bytes → Bytes) (block_header short_nonce : Bytes) : Bytes :=
  (sha256 (block_header ++ short_nonce)).take 16

/-- The spec's short-id computation, stated from the words of spec section 4.2
steps 1-2: byte-reverse the display-order hash, then take the first 6 bytes of
`SipHash-2-4(key, reversed_hash)`. -/
def specShortId (siphash24 : Bytes → Bytes → Bytes) (key : Bytes) (display_hash : Bytes) :
    Bytes :=
  (siphash24 key display_hash.reverse).take 6

/-- The spec's short-id mapper, stated from the words of spec section 4.2: for
each cached `(display_hash, tx_bytes)` entry in enumeration order, insert
`short_id -> tx_bytes` when the short id occurs in the compact block. -/
def specShortIdMapper (siphash24 : Bytes → Bytes → Bytes) (key : Bytes)
    (short_ids : List Bytes) (cache : List (Bytes × Bytes)) : Bytes → Option Bytes :=
  cache.foldl
    (fun m entry =>
      let sid := specShortId siphash24 key entry.1
      if sid ∈ short_ids then sidMapInsert m sid entry.2 else m)
    (fun _ => none)

/-- The indices of the `none` entries of a slot list, in ascending order. -/
def noneIndices : List (Option Bytes) → List Nat
  | [] => []
  | none :: rest => 0 :: (noneIndices rest).map (· + 1)
  | some _ :: rest => (noneIndices rest).map (· + 1)

/-- The three statistics events that `msg_block` can emit (source lines 34, 37
and 45). -/
inductive BlockStatEventType where
  | block_received_from_blockchain_node
  | block_received_from_blockchain_node_ignore_seen
  | block_compressed
deriving DecidableEq

/-- Observable effects of one `msg_block` call: the stats emitted, the hashes
handed to `neutrality_service.propagate_block_to_network`, the hashes passed to
`block_recovery_service.cancel_recovery_for_block`, and the seen-blocks contents
after the call. -/
structure MsgBlockOutput where
  stats : List BlockStatEventType
  propagated : List BlockHash
  recovery_cancelled : List BlockHash
  blocks_seen_after : List BlockHash
deriving DecidableEq

/-- Modelled from the spec: `node.blocks_seen` (a `bxcommon` bounded set, not
under `src/`) is a bounded FIFO set per spec sections 3 and 4.5; its `contents`
is the insertion-ordered list, oldest first, and `add` appends and evicts the
oldest entries past capacity. -/
def blocksSeenAdd (capacity : Nat) (contents : List BlockHash) (h : BlockHash) :
    List BlockHash :=
  let grown := contents ++ [h]
  grown.drop (grown.length - capacity)

/-- Source lines 29-55: `AbstractBlockchainConnectionProtocol.msg_block` as a
transition on the seen-blocks contents. In the seen case it emits the
ignore-seen stat and returns; otherwise it compresses (emitting the compressed
stat), propagates, cancels recovery, and inserts the hash. -/
def msg_block (capacity : Nat) (blocks_seen : List BlockHash) (block_hash : BlockHash) :
    MsgBlockOutput :=
  if block_hash ∈ blocks_seen then
    ⟨[.block_received_from_blockchain_node,
      .block_received_from_blockchain_node_ignore_seen], [], [], blocks_seen⟩
  else
    ⟨[.block_received_from_blockchain_node, .block_compressed],
      [block_hash], [block_hash], blocksSeenAdd capacity blocks_seen block_hash⟩

/-- A sequence of inbound full blocks from the local node, processed in arrival
order through `msg_block`, threading the seen-blocks state. -/
def processBlocks (capacity : Nat) : List BlockHash → List BlockHash → List MsgBlockOutput
  | _, [] => []
  | blocks_seen, h :: rest =>
    let o := msg_block capacity blocks_seen h
    o :: processBlocks capacity o.blocks_seen_after rest

/-! ## Concrete fixtures

Small concrete instantiations of the abstract hash parameters and inputs, used
to evaluate the functions on closed terms. `shaW` returns a constant 32-byte
digest; `siphW` pads the hashed data to 8 bytes, so the derived 6-byte short id
of a 1-byte transaction hash `[b]` is `[b, 0, 0, 0, 0, 0]`. -/

def shaW : Bytes → Bytes := fun _ => List.replicate 32 1

def siphW : Bytes → Bytes → Bytes := fun _ data => data ++ List.replicate 8 0

def msgW : CompactBlockBtcMessage := ⟨[1], [2], [[9, 0, 0, 0, 0, 0]], [(0, [5])]⟩

def svcF : TransactionService := ⟨[[9]], fun h => if h = [9] then [7, 7] else []⟩

def svcP : TransactionService := ⟨[], fun _ => []⟩

def blockW : Bytes := assembleBlockMessage shaW 0 ([1] ++ pack_int_to_btc_varint 2 ++ [5, 7, 7])

def resW : CompactBlockDecompressionResult := ⟨true, some blockW, none, none⟩

/-- A SipHash stub that collides every input, for the collision fixture. -/
def siphC8 : Bytes → Bytes → Bytes := fun _ _ => List.replicate 8 3

def svcC8 : TransactionService := ⟨[[1], [2]], fun h => h⟩

/-! ## Auxiliary lemmas -/

theorem leBytes_length (k n : Nat) : (leBytes k n).length = k := by
  induction k generalizing n with
  | zero => rfl
  | succ k ih => simp [leBytes, ih]

theorem leDecode_leBytes (k n : Nat) : leDecode (leBytes k n) = n % 2 ^ (8 * k) := by
  induction k generalizing n with
  | zero => simp [leBytes, leDecode, Nat.mod_one]
  | succ k ih =>
    have hpow : 2 ^ (8 * (k + 1)) = 256 * 2 ^ (8 * k) := by ring
    rw [leBytes, leDecode, ih, hpow, Nat.mod_mul]

theorem blockCommand_length : blockCommand.length = 12 := by decide

theorem noneIndices_getElem? (s : List (Option Bytes)) (k : Nat) :
    k ∈ noneIndices s ↔ s[k]? = some none := by
  induction s generalizing k with
  | nil => simp [noneIndices]
  | cons o rest ih =>
    cases o with
    | none =>
      cases k with
      | zero => simp [noneIndices]
      | succ k =>
        rw [noneIndices]
        simp only [List.mem_cons, List.mem_map, List.getElem?_cons_succ, ← ih]
        constructor
        · rintro (h | ⟨a, ha, h⟩)
          · omega
          · have : a = k := by omega
            exact this ▸ ha
        · intro h
          exact Or.inr ⟨k, h, rfl⟩
    | some b =>
      cases k with
      | zero => simp [noneIndices]
      | succ k =>
        rw [noneIndices]
        simp only [List.mem_map, List.getElem?_cons_succ, ← ih]
        constructor
        · rintro ⟨a, ha, h⟩
          have : a = k := by omega
          exact this ▸ ha
        · intro h
          exact ⟨k, h, rfl⟩

theorem noneIndices_sorted (s : List (Option Bytes)) : (noneIndices s).Sorted (· < ·) := by
  induction s with
  | nil => simp [noneIndices]
  | cons o rest ih =>
    have hmap : ((noneIndices rest).map (· + 1)).Sorted (· < ·) :=
      List.Pairwise.map _ (fun a b h => by omega) ih
    cases o with
    | none =>
      rw [noneIndices, List.sorted_cons]
      refine ⟨fun b hb => ?_, hmap⟩
      rcases List.mem_map.mp hb with ⟨a, _, rfl⟩
      omega
    | some b => rw [noneIndices]; exact hmap

theorem noneIndices_nodup (s : List (Option Bytes)) : (noneIndices s).Nodup :=
  (noneIndices_sorted s).nodup

theorem noneIndices_lt_length {s : List (Option Bytes)} {k : Nat} (h : k ∈ noneIndices s) :
    k < s.length := by
  have := (noneIndices_getElem? s k).mp h
  by_contra hk
  rw [List.getElem?_eq_none (by omega)] at this
  exact Option.noConfusion this

theorem noneIndices_eq_nil_all_isSome {s : List (Option Bytes)} (h : noneIndices s = []) :
    ∀ o ∈ s, o.isSome := by
  induction s with
  | nil => simp
  | cons o rest ih =>
    cases o with
    | none => exact absurd h (by simp [noneIndices])
    | some b =>
      rw [noneIndices] at h
      have hrest : noneIndices rest = [] := by
        cases hni : noneIndices rest with
        | nil => rfl
        | cons a t => rw [hni] at h; simp at h
      intro o ho
      rcases List.mem_cons.mp ho with rfl | ho
      · rfl
      · exact ih hrest o ho

theorem fillLoop_cons_prefilled {sid_map : Bytes → Option Bytes} {pre : List (Nat × Bytes)}
    {sids : List Bytes} {i : Nat} {rest : List Nat} {c : Nat} {tx : Bytes}
    (hp : _get_prefilled_tx_by_index pre i = some tx) :
    fillLoop sid_map pre sids (i :: rest) c =
      Except.map (fun r => (some tx :: r.1, r.2)) (fillLoop sid_map pre sids rest c) := by
  rw [fillLoop, hp]

theorem fillLoop_cons_short_hit {sid_map : Bytes → Option Bytes} {pre : List (Nat × Bytes)}
    {sids : List Bytes} {i : Nat} {rest : List Nat} {c : Nat} {tx : Bytes}
    (hp : _get_prefilled_tx_by_index pre i = none) (hc : c < sids.length)
    (hm : sid_map (sids.get ⟨c, hc⟩) = some tx) :
    fillLoop sid_map pre sids (i :: rest) c =
      Except.map (fun r => (some tx :: r.1, r.2)) (fillLoop sid_map pre sids rest (c + 1)) := by
  rw [fillLoop, hp, dif_pos hc, hm]

theorem fillLoop_cons_short_miss {sid_map : Bytes → Option Bytes} {pre : List (Nat × Bytes)}
    {sids : List Bytes} {i : Nat} {rest : List Nat} {c : Nat}
    (hp : _get_prefilled_tx_by_index pre i = none) (hc : c < sids.length)
    (hm : sid_map (sids.get ⟨c, hc⟩) = none) :
    fillLoop sid_map pre sids (i :: rest) c =
      Except.map (fun r => (none :: r.1, i :: r.2)) (fillLoop sid_map pre sids rest (c + 1)) := by
  rw [fillLoop, hp, dif_pos hc, hm]

theorem fillLoop_cons_overflow {sid_map : Bytes → Option Bytes} {pre : List (Nat × Bytes)}
    {sids : List Bytes} {i : Nat} {rest : List Nat} {c : Nat}
    (hp : _get_prefilled_tx_by_index pre i = none) (hc : ¬c < sids.length) :
    fillLoop sid_map pre sids (i :: rest) c = .error .malformedCompactBlock := by
  rw [fillLoop, hp, dif_neg hc]

theorem fillLoop_range'_ok (sid_map : Bytes → Option Bytes) (pre : List (Nat × Bytes))
    (sids : List Bytes) :
    ∀ (n a c : Nat) {s : List (Option Bytes)} {miss : List Nat},
      fillLoop sid_map pre sids (List.range' a n) c = Except.ok (s, miss) →
      s.length = n ∧ miss = (noneIndices s).map (· + a) := by
  intro n
  induction n with
  | zero =>
    intro a c s miss h
    rw [show List.range' a 0 = [] from rfl] at h
    simp only [fillLoop, Except.ok.injEq, Prod.mk.injEq] at h
    obtain ⟨h1, h2⟩ := h
    subst h1; subst h2
    simp [noneIndices]
  | succ n ih =>
    intro a c s miss h
    rw [List.range'_succ, fillLoop] at h
    have hfun : ((· + a) ∘ (· + 1) : Nat → Nat) = (· + (a + 1)) := by
      funext x; simp only [Function.comp]; omega
    cases hp : _get_prefilled_tx_by_index pre a with
    | some tx =>
      rw [hp] at h
      cases hrec : fillLoop sid_map pre sids (List.range' (a + 1) n) c with
      | error e => rw [hrec] at h; exact absurd h (by simp [Except.map])
      | ok r =>
        obtain ⟨r1, r2⟩ := r
        rw [hrec] at h
        simp only [Except.map, Except.ok.injEq, Prod.mk.injEq] at h
        obtain ⟨h1, h2⟩ := h
        subst h1; subst h2
        obtain ⟨hl, hm⟩ := ih (a + 1) c hrec
        refine ⟨by simp [hl], ?_⟩
        rw [hm, show noneIndices (some tx :: r1) = (noneIndices r1).map (· + 1) from rfl,
          List.map_map, hfun]
    | none =>
      rw [hp] at h
      by_cases hc : c < sids.length
      · rw [dif_pos hc] at h
        cases hm : sid_map (sids.get ⟨c, hc⟩) with
        | some tx =>
          rw [hm] at h
          cases hrec : fillLoop sid_map pre sids (List.range' (a + 1) n) (c + 1) with
          | error e => rw [hrec] at h; exact absurd h (by simp [Except.map])
          | ok r =>
            obtain ⟨r1, r2⟩ := r
            rw [hrec] at h
            simp only [Except.map, Except.ok.injEq, Prod.mk.injEq] at h
            obtain ⟨h1, h2⟩ := h
            subst h1; subst h2
            obtain ⟨hl, hmiss⟩ := ih (a + 1) (c + 1) hrec
            refine ⟨by simp [hl], ?_⟩
            rw [hmiss, show noneIndices (some tx :: r1) = (noneIndices r1).map (· + 1) from rfl,
              List.map_map, hfun]
        | none =>
          rw [hm] at h
          cases hrec : fillLoop sid_map pre sids (List.range' (a + 1) n) (c + 1) with
          | error e => rw [hrec] at h; exact absurd h (by simp [Except.map])
          | ok r =>
            obtain ⟨r1, r2⟩ := r
            rw [hrec] at h
            simp only [Except.map, Except.ok.injEq, Prod.mk.injEq] at h
            obtain ⟨h1, h2⟩ := h
            subst h1; subst h2
            obtain ⟨hl, hmiss⟩ := ih (a + 1) (c + 1) hrec
            refine ⟨by simp [hl], ?_⟩
            rw [hmiss, show noneIndices (none :: r1) = 0 :: (noneIndices r1).map (· + 1) from rfl]
            simp only [List.map_cons, List.map_map, hfun, Nat.zero_add]
      · rw [dif_neg hc] at h
        exact absurd h (by simp)

theorem fillLoop_range_ok (sid_map : Bytes → Option Bytes) (pre : List (Nat × Bytes))
    (sids : List Bytes) (n c : Nat) {s : List (Option Bytes)} {miss : List Nat}
    (h : fillLoop sid_map pre sids (List.range n) c = Except.ok (s, miss)) :
    s.length = n ∧ miss = noneIndices s := by
  rw [List.range_eq_range'] at h
  obtain ⟨hl, hm⟩ := fillLoop_range'_ok sid_map pre sids n 0 c h
  exact ⟨hl, by simpa using hm⟩

theorem fillLoop_mono (pre : List (Nat × Bytes)) (sids : List Bytes)
    (mP mF : Bytes → Option Bytes)
    (hsub : ∀ s v, mP s = some v → mF s = some v) :
    ∀ (idxs : List Nat) (c : Nat) {sp sf : List (Option Bytes)} {mp mf : List Nat},
      fillLoop mP pre sids idxs c = .ok (sp, mp) →
      fillLoop mF pre sids idxs c = .ok (sf, mf) →
      ∀ (k : Nat) (v : Bytes), sp[k]? = some (some v) → sf[k]? = some (some v) := by
  intro idxs
  induction idxs with
  | nil =>
    intro c sp mp sf mf hP hF k v hk
    simp only [fillLoop, Except.ok.injEq, Prod.mk.injEq] at hP hF
    obtain ⟨h1, _⟩ := hP
    subst h1
    simp at hk
  | cons i rest ih =>
    intro c sp mp sf mf hP hF k v hk
    rw [fillLoop] at hP hF
    cases hp : _get_prefilled_tx_by_index pre i with
    | some tx =>
      rw [hp] at hP hF
      cases hrecP : fillLoop mP pre sids rest c with
      | error e => rw [hrecP] at hP; exact absurd hP (by simp [Except.map])
      | ok rP =>
        cases hrecF : fillLoop mF pre sids rest c with
        | error e => rw [hrecF] at hF; exact absurd hF (by simp [Except.map])
        | ok rF =>
          obtain ⟨rP1, rP2⟩ := rP
          obtain ⟨rF1, rF2⟩ := rF
          rw [hrecP] at hP
          rw [hrecF] at hF
          simp only [Except.map, Except.ok.injEq, Prod.mk.injEq] at hP hF
          obtain ⟨h1, _⟩ := hP
          obtain ⟨h3, _⟩ := hF
          subst h1; subst h3
          cases k with
          | zero => simpa using hk
          | succ k =>
            rw [List.getElem?_cons_succ] at hk ⊢
            exact ih c hrecP hrecF k v hk
    | none =>
      rw [hp] at hP hF
      by_cases hc : c < sids.length
      · rw [dif_pos hc] at hP hF
        cases hrecP : fillLoop mP pre sids rest (c + 1) with
        | error e =>
          rw [hrecP] at hP
          cases hm : mP (sids.get ⟨c, hc⟩) <;> rw [hm] at hP <;>
            exact absurd hP (by simp [Except.map])
        | ok rP =>
          cases hrecF : fillLoop mF pre sids rest (c + 1) with
          | error e =>
            rw [hrecF] at hF
            cases hm : mF (sids.get ⟨c, hc⟩) <;> rw [hm] at hF <;>
              exact absurd hF (by simp [Except.map])
          | ok rF =>
            obtain ⟨rP1, rP2⟩ := rP
            obtain ⟨rF1, rF2⟩ := rF
            rw [hrecP] at hP
            rw [hrecF] at hF
            cases hm : mP (sids.get ⟨c, hc⟩) with
            | some tx =>
              have hmF : mF (sids.get ⟨c, hc⟩) = some tx := hsub _ _ hm
              rw [hm] at hP
              rw [hmF] at hF
              simp only [Except.map, Except.ok.injEq, Prod.mk.injEq] at hP hF
              obtain ⟨h1, _⟩ := hP
              obtain ⟨h3, _⟩ := hF
              subst h1; subst h3
              cases k with
              | zero => simpa using hk
              | succ k =>
                rw [List.getElem?_cons_succ] at hk ⊢
                exact ih (c + 1) hrecP hrecF k v hk
            | none =>
              rw [hm] at hP
              simp only [Except.map, Except.ok.injEq, Prod.mk.injEq] at hP
              obtain ⟨h1, _⟩ := hP
              subst h1
              cases hmF : mF (sids.get ⟨c, hc⟩) with
              | some txF =>
                rw [hmF] at hF
                simp only [Except.map, Except.ok.injEq, Prod.mk.injEq] at hF
                obtain ⟨h3, _⟩ := hF
                subst h3
                cases k with
                | zero => simp at hk
                | succ k =>
                  rw [List.getElem?_cons_succ] at hk ⊢
                  exact ih (c + 1) hrecP hrecF k v hk
              | none =>
                rw [hmF] at hF
                simp only [Except.map, Except.ok.injEq, Prod.mk.injEq] at hF
                obtain ⟨h3, _⟩ := hF
                subst h3
                cases k with
                | zero => simp at hk
                | succ k =>
                  rw [List.getElem?_cons_succ] at hk ⊢
                  exact ih (c + 1) hrecP hrecF k v hk
      · rw [dif_neg hc] at hP
        exact absurd hP (by simp)

theorem fillLoop_err (sid_map : Bytes → Option Bytes) (pre : List (Nat × Bytes))
    (sids : List Bytes) :
    ∀ (idxs : List Nat) (c : Nat),
      sids.length - c <
        idxs.countP (fun i => decide (_get_prefilled_tx_by_index pre i = none)) →
      fillLoop sid_map pre sids idxs c = .error .malformedCompactBlock := by
  intro idxs
  induction idxs with
  | nil => intro c h; simp [List.countP_nil] at h
  | cons i rest ih =>
    intro c h
    rw [List.countP_cons] at h
    cases hp : _get_prefilled_tx_by_index pre i with
    | some tx =>
      rw [hp] at h
      simp at h
      rw [fillLoop_cons_prefilled hp, ih c h]
      rfl
    | none =>
      rw [hp] at h
      simp at h
      by_cases hc : c < sids.length
      · have hrec := ih (c + 1) (by omega)
        cases hm : sid_map (sids.get ⟨c, hc⟩) with
        | some tx => rw [fillLoop_cons_short_hit hp hc hm, hrec]; rfl
        | none => rw [fillLoop_cons_short_miss hp hc hm, hrec]; rfl
      · exact fillLoop_cons_overflow hp hc

theorem _get_prefilled_tx_by_index_eq_none (pre : List (Nat × Bytes)) (i : Nat) :
    _get_prefilled_tx_by_index pre i = none ↔ i ∉ pre.map Prod.fst := by
  induction pre with
  | nil => simp [_get_prefilled_tx_by_index]
  | cons p rest ih =>
    rw [_get_prefilled_tx_by_index]
    by_cases hpi : p.1 = i
    · simp [hpi]
    · simp only [if_neg hpi, ih, List.map_cons, List.mem_cons, not_or]
      constructor
      · intro hni
        exact ⟨fun he => hpi he.symm, hni⟩
      · intro hni
        exact hni.2

theorem writeRecovered_nil_right (bt : List (Option Bytes)) (mi : List Nat) :
    writeRecovered bt mi [] = bt := by
  cases mi <;> rfl

theorem writeRecovered_cons (bt : List (Option Bytes)) (m : Nat) (ms : List Nat)
    (r : Bytes) (rs : List Bytes) :
    writeRecovered bt (m :: ms) (r :: rs) = writeRecovered (bt.set m (some r)) ms rs := rfl

theorem writeRecovered_getElem?_not_mem (mi : List Nat) :
    ∀ (bt : List (Option Bytes)) (rec : List Bytes) (k : Nat), k ∉ mi →
      (writeRecovered bt mi rec)[k]? = bt[k]? := by
  induction mi with
  | nil => intro bt rec k _; rfl
  | cons m ms ih =>
    intro bt rec k hk
    cases rec with
    | nil => rw [writeRecovered_nil_right]
    | cons r rs =>
      rw [writeRecovered_cons, ih _ rs k (fun h => hk (List.mem_cons_of_mem _ h))]
      exact List.getElem?_set_ne (fun h => hk (by rw [← h]; exact List.mem_cons_self m ms))

theorem writeRecovered_getElem?_mem (mi : List Nat) :
    ∀ (bt : List (Option Bytes)) (rec : List Bytes) (j k : Nat) (v : Bytes),
      mi.Nodup → mi[j]? = some k → rec[j]? = some v → k < bt.length →
      (writeRecovered bt mi rec)[k]? = some (some v) := by
  induction mi with
  | nil => intro bt rec j k v _ hj _ _; simp at hj
  | cons m ms ih =>
    intro bt rec j k v hnd hj hv hk
    cases rec with
    | nil => simp at hv
    | cons r rs =>
      rw [writeRecovered_cons]
      cases j with
      | zero =>
        simp only [List.getElem?_cons_zero, Option.some.injEq] at hj hv
        subst hj; subst hv
        rw [writeRecovered_getElem?_not_mem ms _ rs m (List.nodup_cons.mp hnd).1]
        exact List.getElem?_set_self (by simpa using hk)
      | succ j =>
        simp only [List.getElem?_cons_succ] at hj hv
        exact ih (bt.set m (some r)) rs j k v (List.nodup_cons.mp hnd).2 hj hv
          (by simpa using hk)

theorem foldl_sidMapStep_no_hit (siph : Bytes → Bytes → Bytes) (key : Bytes)
    (sids : List Bytes) (f : Bytes → Bytes) (s : Bytes) :
    ∀ (ys : List Bytes) (m : Bytes → Option Bytes),
      (∀ g ∈ ys, _compute_short_id siph key g.reverse ≠ s) →
      ys.foldl (sidMapStep siph key sids f) m s = m s := by
  intro ys
  induction ys with
  | nil => intro m _; rfl
  | cons y ys ih =>
    intro m hny
    rw [List.foldl_cons, ih _ (fun g hg => hny g (List.mem_cons_of_mem _ hg))]
    simp only [sidMapStep, sidMapInsert]
    split
    · exact if_neg (fun he => hny y (List.mem_cons_self y ys) he.symm)
    · rfl

theorem build_short_id_map_last_wins (siph : Bytes → Bytes → Bytes) (key : Bytes)
    (sids : List Bytes) (f : Bytes → Bytes) (xs ys : List Bytes) (h2 : Bytes)
    (hin : _compute_short_id siph key h2.reverse ∈ sids)
    (hno : ∀ g ∈ ys,
      _compute_short_id siph key g.reverse ≠ _compute_short_id siph key h2.reverse) :
    build_short_id_map siph key sids ⟨xs ++ h2 :: ys, f⟩
      (_compute_short_id siph key h2.reverse) = some (f h2) := by
  rw [build_short_id_map]
  show (xs ++ h2 :: ys).foldl (sidMapStep siph key sids f) (fun _ => none) _ = _
  rw [show xs ++ h2 :: ys = (xs ++ [h2]) ++ ys by simp, List.foldl_append,
    foldl_sidMapStep_no_hit siph key sids f _ ys _ hno, List.foldl_append,
    List.foldl_cons, List.foldl_nil]
  simp only [sidMapStep, sidMapInsert]
  rw [if_pos hin]
  exact if_pos rfl

theorem build_short_id_map_deterministic (siph : Bytes → Bytes → Bytes) (key : Bytes)
    (sids : List Bytes) (svc svc' : TransactionService)
    (hh : svc.hashes = svc'.hashes) (hc : ∀ x, svc.contents x = svc'.contents x) :
    build_short_id_map siph key sids svc = build_short_id_map siph key sids svc' := by
  rw [build_short_id_map, build_short_id_map, hh]
  exact List.foldl_ext _ _ _ (fun m y _ => by simp only [sidMapStep, hc y])

theorem assembleBlockMessage_eq (sha : Bytes → Bytes) (magic : Nat) (p : Bytes) :
    assembleBlockMessage sha magic p =
      (leBytes 4 magic ++ blockCommand ++ leBytes 4 p.length) ++
        ((bitcoin_hash sha p).take 4 ++ p) := by
  rw [assembleBlockMessage]
  have h20 : (leBytes 4 magic ++ blockCommand ++ leBytes 4 p.length).length = 20 := by
    simp [leBytes_length, blockCommand_length]
  have hshape :
      (leBytes 4 magic ++ blockCommand ++ leBytes 4 p.length ++ List.replicate 4 0) ++ p =
        (leBytes 4 magic ++ blockCommand ++ leBytes 4 p.length) ++
          (List.replicate 4 0 ++ p) := by
    simp [List.append_assoc]
  have h24 : ((leBytes 4 magic ++ blockCommand ++ leBytes 4 p.length) ++
      List.replicate 4 0).length = 24 := by
    simp [leBytes_length, blockCommand_length]
  simp only [hshape]
  rw [List.take_left' h20]
  rw [show (leBytes 4 magic ++ blockCommand ++ leBytes 4 p.length) ++
      (List.replicate 4 0 ++ p) =
      ((leBytes 4 magic ++ blockCommand ++ leBytes 4 p.length) ++ List.replicate 4 0) ++ p
    by simp [List.append_assoc], List.drop_left' h24]
  simp [List.append_assoc]

theorem assembleBlockMessage_fields (sha : Bytes → Bytes) (magic : Nat) (p : Bytes)
    (hsha : ∀ x, (sha x).length = 32) :
    (assembleBlockMessage sha magic p).drop 24 = p ∧
    ((assembleBlockMessage sha magic p).drop 20).take 4 = (sha (sha p)).take 4 ∧
    ((assembleBlockMessage sha magic p).drop 16).take 4 = leBytes 4 p.length := by
  rw [assembleBlockMessage_eq]
  have hck : ((bitcoin_hash sha p).take 4).length = 4 := by
    simp [bitcoin_hash, hsha]
  have h20 : (leBytes 4 magic ++ blockCommand ++ leBytes 4 p.length).length = 20 := by
    simp [leBytes_length, blockCommand_length]
  refine ⟨?_, ?_, ?_⟩
  · rw [show (leBytes 4 magic ++ blockCommand ++ leBytes 4 p.length) ++
        ((bitcoin_hash sha p).take 4 ++ p) =
        ((leBytes 4 magic ++ blockCommand ++ leBytes 4 p.length) ++
          (bitcoin_hash sha p).take 4) ++ p by simp [List.append_assoc]]
    exact List.drop_left' (by rw [List.length_append, h20, hck])
  · rw [List.drop_left' h20, List.take_left' hck]; rfl
  · rw [show (leBytes 4 magic ++ blockCommand ++ leBytes 4 p.length) ++
        ((bitcoin_hash sha p).take 4 ++ p) =
        (leBytes 4 magic ++ blockCommand) ++
          (leBytes 4 p.length ++ ((bitcoin_hash sha p).take 4 ++ p)) by
      simp [List.append_assoc]]
    rw [List.drop_left' (by simp [leBytes_length, blockCommand_length])]
    exact List.take_left' (leBytes_length 4 p.length)

theorem decompress_compact_block_ok_inv {sha256 : Bytes → Bytes}
    {siphash24 : Bytes → Bytes → Bytes} {magic : Nat} {msg : CompactBlockBtcMessage}
    {svc : TransactionService} {res : CompactBlockDecompressionResult}
    (h : decompress_compact_block sha256 siphash24 magic msg svc = .ok res) :
    ∃ s miss,
      fillLoop (build_short_id_map siphash24 (compact_block_sip_key sha256 msg)
          msg.short_ids svc) msg.prefilled_txns msg.short_ids
        (List.range (msg.prefilled_txns.length + msg.short_ids.length)) 0 = .ok (s, miss) ∧
      ((0 < miss.length ∧ res = ⟨false, none, some s, some miss⟩) ∨
        (miss = [] ∧ res = ⟨true, some (assembleBlockMessage sha256 magic
          (msg.block_header ++
            pack_int_to_btc_varint (msg.prefilled_txns.length + msg.short_ids.length) ++
            (s.filterMap id).flatten)), none, none⟩)) := by
  simp only [decompress_compact_block] at h
  cases hfl : fillLoop (build_short_id_map siphash24 (compact_block_sip_key sha256 msg)
      msg.short_ids svc) msg.prefilled_txns msg.short_ids
      (List.range (msg.prefilled_txns.length + msg.short_ids.length)) 0 with
  | error e => rw [hfl] at h; exact absurd h (by simp [Except.map])
  | ok r =>
    obtain ⟨s, miss⟩ := r
    rw [hfl] at h
    simp only [Except.map, Except.ok.injEq] at h
    refine ⟨s, miss, rfl, ?_⟩
    by_cases hm : 0 < miss.length
    · rw [if_pos hm] at h
      exact Or.inl ⟨hm, h.symm⟩
    · rw [if_neg hm] at h
      exact Or.inr ⟨List.length_eq_zero.mp (by omega), h.symm⟩

/-! ## Claim theorems -/

/-- C1: whenever `decompress_compact_block` returns a result, that result is
either Complete — success, the assembled block message, and no slot or missing
lists — or Partial — no block, a slot list of length
`len(prefilled) + len(short_ids)`, and missing indices that are exactly the
indices of the `none` slots, in ascending order (and non-empty). -/
theorem c1_complete_xor_partial (sha256 : Bytes → Bytes) (siphash24 : Bytes → Bytes → Bytes)
    (magic : Nat) (msg : CompactBlockBtcMessage) (svc : TransactionService)
    (res : CompactBlockDecompressionResult)
    (h : decompress_compact_block sha256 siphash24 magic msg svc = .ok res) :
    (res.success = true ∧ res.block_transactions = none ∧
      res.missing_transactions_indices = none ∧
      ∃ slots,
        fillLoop (build_short_id_map siphash24 (compact_block_sip_key sha256 msg)
            msg.short_ids svc) msg.prefilled_txns msg.short_ids
          (List.range (msg.prefilled_txns.length + msg.short_ids.length)) 0 =
            .ok (slots, []) ∧
        res.block_btc_message = some (assembleBlockMessage sha256 magic
          (msg.block_header ++
            pack_int_to_btc_varint (msg.prefilled_txns.length + msg.short_ids.length) ++
            (slots.filterMap id).flatten))) ∨
    (res.success = false ∧ res.block_btc_message = none ∧
      ∃ slots, res.block_transactions = some slots ∧
        slots.length = msg.prefilled_txns.length + msg.short_ids.length ∧
        res.missing_transactions_indices = some (noneIndices slots) ∧
        noneIndices slots ≠ [] ∧
        (noneIndices slots).Sorted (· < ·)) := by
  obtain ⟨s, miss, hfl, hcase⟩ := decompress_compact_block_ok_inv h
  rcases hcase with ⟨hm, rfl⟩ | ⟨rfl, rfl⟩
  · right
    obtain ⟨hl, hmiss⟩ := fillLoop_range_ok _ _ _ _ _ hfl
    subst hmiss
    refine ⟨rfl, rfl, s, rfl, hl, rfl, ?_, noneIndices_sorted s⟩
    intro hnil
    rw [hnil] at hm
    simp at hm
  · exact Or.inl ⟨rfl, rfl, rfl, s, hfl, rfl⟩

/-- Witness for C1 at a concrete input: a coinbase-prefilled slot plus one
short-id slot resolved from the cache. -/
theorem c1_witness :
    decompress_compact_block shaW siphW 0 msgW svcF = .ok resW ∧
    ((resW.success = true ∧ resW.block_transactions = none ∧
      resW.missing_transactions_indices = none ∧
      ∃ slots,
        fillLoop (build_short_id_map siphW (compact_block_sip_key shaW msgW)
            msgW.short_ids svcF) msgW.prefilled_txns msgW.short_ids
          (List.range (msgW.prefilled_txns.length + msgW.short_ids.length)) 0 =
            .ok (slots, []) ∧
        resW.block_btc_message = some (assembleBlockMessage shaW 0
          (msgW.block_header ++
            pack_int_to_btc_varint (msgW.prefilled_txns.length + msgW.short_ids.length) ++
            (slots.filterMap id).flatten))) ∨
    (resW.success = false ∧ resW.block_btc_message = none ∧
      ∃ slots, resW.block_transactions = some slots ∧
        slots.length = msgW.prefilled_txns.length + msgW.short_ids.length ∧
        resW.missing_transactions_indices = some (noneIndices slots) ∧
        noneIndices slots ≠ [] ∧
        (noneIndices slots).Sorted (· < ·))) :=
  ⟨rfl, c1_complete_xor_partial shaW siphW 0 msgW svcF resW rfl⟩

/-- C10: every returned decompression result satisfies the shape invariant:
on success the block message is present and the slot and missing lists are
absent; on failure the block is absent and the missing list is present and
non-empty. -/
theorem c10_result_shape_invariant (sha256 : Bytes → Bytes)
    (siphash24 : Bytes → Bytes → Bytes) (magic : Nat) (msg : CompactBlockBtcMessage)
    (svc : TransactionService) (res : CompactBlockDecompressionResult)
    (h : decompress_compact_block sha256 siphash24 magic msg svc = .ok res) :
    (res.success = true → (∃ b, res.block_btc_message = some b) ∧
      res.block_transactions = none ∧ res.missing_transactions_indices = none) ∧
    (res.success = false → res.block_btc_message = none ∧
      ∃ m, res.missing_transactions_indices = some m ∧ m ≠ []) := by
  obtain ⟨s, miss, hfl, hcase⟩ := decompress_compact_block_ok_inv h
  rcases hcase with ⟨hm, rfl⟩ | ⟨rfl, rfl⟩
  · refine ⟨fun hs => by simp at hs, fun _ => ⟨rfl, miss, rfl, ?_⟩⟩
    intro hnil
    rw [hnil] at hm
    simp at hm
  · exact ⟨fun _ => ⟨⟨_, rfl⟩, rfl, rfl⟩, fun hs => by simp at hs⟩

/-- Witness for C10 at a concrete input. -/
theorem c10_witness :
    decompress_compact_block shaW siphW 0 msgW svcF = .ok resW ∧
    ((resW.success = true → (∃ b, resW.block_btc_message = some b) ∧
      resW.block_transactions = none ∧ resW.missing_transactions_indices = none) ∧
    (resW.success = false → resW.block_btc_message = none ∧
      ∃ m, resW.missing_transactions_indices = some m ∧ m ≠ [])) :=
  ⟨rfl, c10_result_shape_invariant shaW siphW 0 msgW svcF resW rfl⟩

/-- C2: the decompressor's SipHash key is the first 16 bytes of
`SHA256(block_header concat short_nonce)`, and the short-id map it builds over
the cache is the spec's mapper: for each cached display-order hash, the short
id is the first 6 bytes of SipHash-2-4 of the key applied to the byte-reversed
raw hash. -/
theorem c2_sip_key_and_short_id_derivation (sha256 : Bytes → Bytes)
    (siphash24 : Bytes → Bytes → Bytes) (msg : CompactBlockBtcMessage)
    (svc : TransactionService) :
    compact_block_sip_key sha256 msg =
      specSipKey sha256 msg.block_header msg.short_nonce_buf ∧
    (∀ key display_hash, _compute_short_id siphash24 key display_hash.reverse =
      specShortId siphash24 key display_hash) ∧
    build_short_id_map siphash24 (compact_block_sip_key sha256 msg) msg.short_ids svc =
      specShortIdMapper siphash24 (specSipKey sha256 msg.block_header msg.short_nonce_buf)
        msg.short_ids (svc.hashes.map (fun h => (h, svc.contents h))) := by
  refine ⟨rfl, fun key dh => rfl, ?_⟩
  rw [build_short_id_map, specShortIdMapper, List.foldl_map]
  rfl

/-- C4: a compact block with a duplicate prefilled index, or with a prefilled
index at or above the total slot count, makes decompression fail with the
`MalformedCompactBlock` decode error; no block is produced. -/
theorem c4_malformed_prefilled_indices (sha256 : Bytes → Bytes)
    (siphash24 : Bytes → Bytes → Bytes) (magic : Nat) (msg : CompactBlockBtcMessage)
    (svc : TransactionService)
    (hbad : ¬(msg.prefilled_txns.map Prod.fst).Nodup ∨
      ∃ p ∈ msg.prefilled_txns, msg.prefilled_txns.length + msg.short_ids.length ≤ p.1) :
    decompress_compact_block sha256 siphash24 magic msg svc =
      .error .malformedCompactBlock := by
  have hks : (msg.prefilled_txns.map Prod.fst).length = msg.prefilled_txns.length :=
    List.length_map _ _
  set ks := msg.prefilled_txns.map Prod.fst with hksdef
  set N := msg.prefilled_txns.length + msg.short_ids.length with hNdef
  have hnd : ((List.range N).filter (fun i => decide (i ∈ ks))).Nodup :=
    (List.nodup_range N).filter _
  have hA : ((List.range N).filter (fun i => decide (i ∈ ks))).length < ks.length := by
    have hdedup_le : ks.dedup.length ≤ ks.length := (List.dedup_sublist ks).length_le
    rcases hbad with hdup | ⟨p, hp, hge⟩
    · have hsub : ((List.range N).filter (fun i => decide (i ∈ ks))) ⊆ ks.dedup := by
        intro x hx
        rw [List.mem_filter] at hx
        exact List.mem_dedup.mpr (by simpa using hx.2)
      have h1 := (List.subperm_of_subset hnd hsub).length_le
      have h2 : ks.dedup.length < ks.length := by
        rcases Nat.lt_or_ge ks.dedup.length ks.length with hlt | hge2
        · exact hlt
        · have heq := (List.dedup_sublist ks).eq_of_length
            (Nat.le_antisymm (List.dedup_sublist ks).length_le hge2)
          exact absurd (heq ▸ List.nodup_dedup ks) hdup
      omega
    · have hk0 : p.1 ∈ ks.dedup := List.mem_dedup.mpr (List.mem_map_of_mem Prod.fst hp)
      have hsub2 : ((List.range N).filter (fun i => decide (i ∈ ks))) ⊆
          ks.dedup.filter (fun x => decide (x < N)) := by
        intro x hx
        rw [List.mem_filter] at hx ⊢
        refine ⟨List.mem_dedup.mpr (by simpa using hx.2), ?_⟩
        simpa using List.mem_range.mp hx.1
      have h1 := (List.subperm_of_subset hnd hsub2).length_le
      have hpos : 0 < ks.dedup.countP (fun x => ¬decide (x < N)) := by
        rw [List.countP_pos_iff]
        exact ⟨p.1, hk0, by simpa using hge⟩
      have hsum := List.length_eq_countP_add_countP (p := fun x => decide (x < N)) ks.dedup
      have hflen := List.countP_eq_length_filter (p := fun x => decide (x < N)) ks.dedup
      omega
  have hcount : msg.short_ids.length - 0 < (List.range N).countP
      (fun i => decide (_get_prefilled_tx_by_index msg.prefilled_txns i = none)) := by
    have hceq : (List.range N).countP
        (fun i => decide (_get_prefilled_tx_by_index msg.prefilled_txns i = none)) =
        (List.range N).countP (fun i => ¬decide (i ∈ ks)) :=
      List.countP_congr (fun x _ => by
        simp [_get_prefilled_tx_by_index_eq_none, hksdef])
    have hsumN := List.length_eq_countP_add_countP (p := fun i => decide (i ∈ ks))
      (List.range N)
    rw [List.length_range] at hsumN
    have hAeq := List.countP_eq_length_filter (p := fun i => decide (i ∈ ks)) (List.range N)
    omega
  simp only [decompress_compact_block]
  rw [fillLoop_err _ _ _ _ 0 hcount]
  rfl

/-- Witness for C4: a duplicate prefilled index 0. -/
theorem c4_witness :
    ¬((⟨[1], [2], [], [(0, [5]), (0, [6])]⟩ :
        CompactBlockBtcMessage).prefilled_txns.map Prod.fst).Nodup ∧
    decompress_compact_block shaW siphW 0 ⟨[1], [2], [], [(0, [5]), (0, [6])]⟩ svcF =
      .error .malformedCompactBlock :=
  ⟨by decide, c4_malformed_prefilled_indices shaW siphW 0 _ svcF (Or.inl (by decide))⟩

/-- C5: the resolver returns the RecoveryMismatch failure (success `false`, no
block, list untouched) exactly when the missing-index and recovered counts
differ; with matching counts, in-range indices and all slots filled it writes
the recovered transactions and assembles the full block message. -/
theorem c5_recovery_mismatch_iff (sha256 : Bytes → Bytes) (magic : Nat)
    (msg : CompactBlockBtcMessage) (bt : List (Option Bytes)) (mi : List Nat)
    (rec : List Bytes) :
    (decompress_recovered_compact_block sha256 magic msg bt mi rec =
        some (⟨false, none⟩, bt) ↔ mi.length ≠ rec.length) ∧
    (mi.length = rec.length →
      (∀ i ∈ mi, i < bt.length) →
      (writeRecovered bt mi rec).all Option.isSome = true →
      decompress_recovered_compact_block sha256 magic msg bt mi rec =
        some (⟨true, some (assembleBlockMessage sha256 magic
          (msg.block_header ++ pack_int_to_btc_varint (writeRecovered bt mi rec).length ++
            ((writeRecovered bt mi rec).filterMap id).flatten))⟩,
          writeRecovered bt mi rec)) := by
  constructor
  · constructor
    · intro h
      by_contra hne
      have hlen : ¬mi.length ≠ rec.length := by omega
      simp only [decompress_recovered_compact_block, if_neg hlen] at h
      by_cases hany : (mi.any fun i => decide (bt.length ≤ i)) = true
      · rw [if_pos hany] at h
        exact Option.noConfusion h
      · rw [if_neg hany] at h
        by_cases hall : (writeRecovered bt mi rec).all Option.isSome = true
        · rw [if_pos hall] at h
          simp at h
        · rw [if_neg hall] at h
          exact Option.noConfusion h
    · intro hne
      simp only [decompress_recovered_compact_block, if_pos hne]
  · intro hlen hin hall
    simp only [decompress_recovered_compact_block, if_neg (by omega : ¬mi.length ≠ rec.length)]
    rw [if_neg, if_pos hall]
    simp only [List.any_eq_true, decide_eq_true_eq, not_exists, not_and]
    intro i hi
    have := hin i hi
    omega

/-- Witness for C5: recovering the single missing slot of the partial fixture
succeeds and assembles the block. -/
theorem c5_witness :
    ([1] : List Nat).length = ([[7, 7]] : List Bytes).length ∧
    decompress_recovered_compact_block shaW 0 msgW [some [5], none] [1] [[7, 7]] =
      some (⟨true, some blockW⟩, [some [5], some [7, 7]]) :=
  ⟨rfl, (c5_recovery_mismatch_iff shaW 0 msgW [some [5], none] [1] [[7, 7]]).2 rfl
    (by decide) (by decide)⟩

/-- C9: the resolver's effect on the caller's `block_transactions` list: the
length-mismatch failure returns it unmodified, and a success returns it with
exactly the positions listed in `missing_indices` overwritten by the
corresponding recovered transactions and every other position unchanged. -/
theorem c9_frame_effect (sha256 : Bytes → Bytes) (magic : Nat)
    (msg : CompactBlockBtcMessage) (bt : List (Option Bytes)) (mi : List Nat)
    (rec : List Bytes) (hnd : mi.Nodup) :
    (mi.length ≠ rec.length →
      decompress_recovered_compact_block sha256 magic msg bt mi rec =
        some (⟨false, none⟩, bt)) ∧
    (∀ (r : CompactBlockRecoveryResult) (st : List (Option Bytes)),
      decompress_recovered_compact_block sha256 magic msg bt mi rec = some (r, st) →
      r.success = true →
      (∀ k : Nat, k ∉ mi → st[k]? = bt[k]?) ∧
      (∀ (j k : Nat) (v : Bytes), mi[j]? = some k → rec[j]? = some v →
        st[k]? = some (some v))) := by
  constructor
  · intro hne
    simp only [decompress_recovered_compact_block, if_pos hne]
  · intro r st h hs
    simp only [decompress_recovered_compact_block] at h
    by_cases hlen : mi.length ≠ rec.length
    · rw [if_pos hlen] at h
      simp only [Option.some.injEq, Prod.mk.injEq] at h
      obtain ⟨hr, _⟩ := h
      rw [← hr] at hs
      simp at hs
    · rw [if_neg hlen] at h
      by_cases hany : (mi.any fun i => decide (bt.length ≤ i)) = true
      · rw [if_pos hany] at h
        exact Option.noConfusion h
      · rw [if_neg hany] at h
        by_cases hall : (writeRecovered bt mi rec).all Option.isSome = true
        · rw [if_pos hall] at h
          simp only [Option.some.injEq, Prod.mk.injEq] at h
          obtain ⟨_, hst⟩ := h
          subst hst
          have hrange : ∀ i ∈ mi, i < bt.length := by
            intro i hi
            by_contra hge
            exact hany (List.any_eq_true.mpr ⟨i, hi, by simpa using by omega⟩)
          refine ⟨fun k hk => writeRecovered_getElem?_not_mem mi bt rec k hk, ?_⟩
          intro j k v hj hv
          exact writeRecovered_getElem?_mem mi bt rec j k v hnd hj hv
            (hrange k (List.getElem?_mem hj))
        · rw [if_neg hall] at h
          exact Option.noConfusion h

/-- Witness for C9: in the recovered fixture, slot 1 (the missing index) now
holds the recovered transaction. -/
theorem c9_witness :
    ([1] : List Nat).Nodup ∧
    decompress_recovered_compact_block shaW 0 msgW [some [5], none] [1] [[7, 7]] =
      some (⟨true, some blockW⟩, [some [5], some [7, 7]]) ∧
    ([some [5], some [7, 7]] : List (Option Bytes))[1]? = some (some [7, 7]) :=
  ⟨by decide, by rfl,
    ((c9_frame_effect shaW 0 msgW [some [5], none] [1] [[7, 7]] (by decide)).2
      ⟨true, some blockW⟩ [some [5], some [7, 7]] (by rfl) rfl).2 0 1 [7, 7] rfl rfl⟩

/-- C8: with the same SipHash key and the same cache enumeration (hashes in the
same order, same contents) the short-id map is identical; and when two cached
transactions collide on the same short id (none of the later entries matching
it), the map deterministically holds the transaction of the later one, never
both. -/
theorem c8_short_id_determinism (siphash24 : Bytes → Bytes → Bytes) (key : Bytes)
    (sids : List Bytes) (svc svc' : TransactionService)
    (hh : svc.hashes = svc'.hashes) (hc : ∀ x, svc.contents x = svc'.contents x) :
    build_short_id_map siphash24 key sids svc = build_short_id_map siphash24 key sids svc' ∧
    (∀ (l1 : List Bytes) (h1 : Bytes) (l2 : List Bytes) (h2 : Bytes) (l3 : List Bytes),
      svc.hashes = l1 ++ h1 :: (l2 ++ h2 :: l3) →
      _compute_short_id siphash24 key h1.reverse =
        _compute_short_id siphash24 key h2.reverse →
      _compute_short_id siphash24 key h2.reverse ∈ sids →
      (∀ g ∈ l3, _compute_short_id siphash24 key g.reverse ≠
        _compute_short_id siphash24 key h2.reverse) →
      build_short_id_map siphash24 key sids svc
          (_compute_short_id siphash24 key h2.reverse) = some (svc.contents h2) ∧
      (svc.contents h1 ≠ svc.contents h2 →
        build_short_id_map siphash24 key sids svc
          (_compute_short_id siphash24 key h2.reverse) ≠ some (svc.contents h1))) := by
  refine ⟨build_short_id_map_deterministic siphash24 key sids svc svc' hh hc, ?_⟩
  intro l1 h1 l2 h2 l3 hsplit hcol hin hno
  have hb : build_short_id_map siphash24 key sids svc
      (_compute_short_id siphash24 key h2.reverse) = some (svc.contents h2) := by
    have hlast := build_short_id_map_last_wins siphash24 key sids svc.contents
      (l1 ++ h1 :: l2) l3 h2 hin hno
    rw [build_short_id_map] at hlast ⊢
    rw [hsplit]
    simpa [List.append_assoc, List.cons_append] using hlast
  refine ⟨hb, fun hne habs => hne ?_⟩
  rw [hb] at habs
  exact (Option.some.inj habs).symm

/-- Witness for C8: with an always-colliding SipHash stub over the cache
enumeration `[[1], [2]]`, the map holds the later transaction `[2]`. -/
theorem c8_witness :
    build_short_id_map siphC8 [0] [[3, 3, 3, 3, 3, 3]] svcC8 [3, 3, 3, 3, 3, 3] =
      some [2] := by
  have h := ((c8_short_id_determinism siphC8 [0] [[3, 3, 3, 3, 3, 3]] svcC8 svcC8 rfl
      (fun x => rfl)).2 [] [1] [] [2] [] rfl rfl (by decide)
      (fun g hg => absurd hg (List.not_mem_nil g))).1
  exact h

/-- C7: an inbound full block whose hash is already in the seen set emits only
the received and ignore-seen stats, propagates nothing, cancels nothing, and
leaves the set unchanged; a hash leaves the seen set only through capacity
eviction, and as long as a hash stays in the set no run of the handler
propagates it again. -/
theorem c7_seen_blocks_dedup (capacity : Nat) (blocks_seen : List BlockHash)
    (h : BlockHash) (hseen : h ∈ blocks_seen) :
    msg_block capacity blocks_seen h =
      ⟨[.block_received_from_blockchain_node,
        .block_received_from_blockchain_node_ignore_seen], [], [], blocks_seen⟩ ∧
    (∀ g, h ∉ (msg_block capacity blocks_seen g).blocks_seen_after →
      capacity ≤ blocks_seen.length) ∧
    (∀ (start incoming : List BlockHash), h ∈ start →
      (∀ o ∈ processBlocks capacity start incoming, h ∈ o.blocks_seen_after) →
      ∀ o ∈ processBlocks capacity start incoming, h ∉ o.propagated) := by
  refine ⟨by rw [msg_block, if_pos hseen], ?_, ?_⟩
  · intro g hnot
    by_cases hg : g ∈ blocks_seen
    · rw [msg_block, if_pos hg] at hnot
      exact absurd hseen hnot
    · rw [msg_block, if_neg hg] at hnot
      by_contra hcap
      apply hnot
      show h ∈ blocksSeenAdd capacity blocks_seen g
      rw [blocksSeenAdd]
      have hz : (blocks_seen ++ [g]).length - capacity = 0 := by
        simp only [List.length_append, List.length_singleton]
        omega
      rw [hz, List.drop_zero]
      exact List.mem_append_left _ hseen
  · intro start incoming
    induction incoming generalizing start with
    | nil =>
      intro _ _ o ho
      simp [processBlocks] at ho
    | cons g rest ih =>
      intro hstart hkeep o ho
      simp only [processBlocks] at ho hkeep
      have hafter : h ∈ (msg_block capacity start g).blocks_seen_after :=
        hkeep _ (List.mem_cons_self _ _)
      rcases List.mem_cons.mp ho with rfl | ho'
      · by_cases hg : g ∈ start
        · rw [msg_block, if_pos hg]
          exact List.not_mem_nil h
        · rw [msg_block, if_neg hg]
          intro hmem
          exact hg (List.mem_singleton.mp hmem ▸ hstart)
      · exact ih (msg_block capacity start g).blocks_seen_after hafter
          (fun o' ho'' => hkeep o' (List.mem_cons_of_mem _ ho'')) o ho'

/-- Witness for C7: pushing hash 5 when it is already in the seen set. -/
theorem c7_witness :
    (5 : BlockHash) ∈ ([5] : List BlockHash) ∧
    msg_block 2 [5] 5 =
      ⟨[.block_received_from_blockchain_node,
        .block_received_from_blockchain_node_ignore_seen], [], [], [5]⟩ :=
  ⟨by decide, (c7_seen_blocks_dedup 2 [5] 5 (by decide)).1⟩

theorem decompress_recovered_ok_block {sha256 : Bytes → Bytes} {magic : Nat}
    {msg : CompactBlockBtcMessage} {bt : List (Option Bytes)} {mi : List Nat}
    {rec : List Bytes} {r : CompactBlockRecoveryResult} {st : List (Option Bytes)}
    {b : Bytes}
    (h : decompress_recovered_compact_block sha256 magic msg bt mi rec = some (r, st))
    (hblock : r.block_btc_message = some b) :
    b = assembleBlockMessage sha256 magic
      (msg.block_header ++ pack_int_to_btc_varint (writeRecovered bt mi rec).length ++
        ((writeRecovered bt mi rec).filterMap id).flatten) := by
  simp only [decompress_recovered_compact_block] at h
  by_cases hlen : mi.length ≠ rec.length
  · rw [if_pos hlen] at h
    simp only [Option.some.injEq, Prod.mk.injEq] at h
    rw [← h.1] at hblock
    exact absurd hblock (by simp)
  · rw [if_neg hlen] at h
    by_cases hany : (mi.any fun i => decide (bt.length ≤ i)) = true
    · rw [if_pos hany] at h
      exact Option.noConfusion h
    · rw [if_neg hany] at h
      by_cases hall : (writeRecovered bt mi rec).all Option.isSome = true
      · rw [if_pos hall] at h
        simp only [Option.some.injEq, Prod.mk.injEq] at h
        rw [← h.1] at hblock
        exact (Option.some.inj hblock).symm
      · rw [if_neg hall] at h
        exact Option.noConfusion h

/-- C6: every block message emitted by the decompressor or the recovery
resolver carries a 24-byte envelope whose checksum field (bytes 20..24) equals
the first 4 bytes of the double SHA-256 of the payload, and whose length field
(bytes 16..20) is the little-endian encoding of the payload's actual length;
the payload is the block header followed by a tx-count varint and the
transactions. -/
theorem c6_envelope_validity (sha256 : Bytes → Bytes) (siphash24 : Bytes → Bytes → Bytes)
    (magic : Nat) (msg : CompactBlockBtcMessage) (svc : TransactionService)
    (bt : List (Option Bytes)) (mi : List Nat) (rec : List Bytes) (b : Bytes)
    (hsha : ∀ x, (sha256 x).length = 32)
    (hemit : (∃ res, decompress_compact_block sha256 siphash24 magic msg svc = .ok res ∧
        res.block_btc_message = some b) ∨
      (∃ r st, decompress_recovered_compact_block sha256 magic msg bt mi rec =
          some (r, st) ∧ r.block_btc_message = some b))
    (hsize : (b.drop 24).length < 2 ^ (8 * 4)) :
    (b.drop 20).take 4 = (sha256 (sha256 (b.drop 24))).take 4 ∧
    leDecode ((b.drop 16).take 4) = (b.drop 24).length ∧
    (∃ count body, b.drop 24 = msg.block_header ++ pack_int_to_btc_varint count ++ body) := by
  have hb : ∃ payload, b = assembleBlockMessage sha256 magic payload ∧
      ∃ count body, payload = msg.block_header ++ pack_int_to_btc_varint count ++ body := by
    rcases hemit with ⟨res, hres, hblock⟩ | ⟨r, st, hr, hblock⟩
    · obtain ⟨s, miss, _, hcase⟩ := decompress_compact_block_ok_inv hres
      rcases hcase with ⟨_, rfl⟩ | ⟨_, rfl⟩
      · exact absurd hblock (by simp)
      · exact ⟨_, (Option.some.inj hblock).symm, _, _, rfl⟩
    · exact ⟨_, decompress_recovered_ok_block hr hblock, _, _, rfl⟩
  obtain ⟨payload, rfl, count, body, hshape⟩ := hb
  obtain ⟨hdrop24, hck, hlenf⟩ := assembleBlockMessage_fields sha256 magic payload hsha
  rw [hdrop24] at hsize
  refine ⟨?_, ?_, ?_⟩
  · rw [hdrop24, hck]
  · rw [hdrop24, hlenf, leDecode_leBytes]
    exact Nat.mod_eq_of_lt hsize
  · exact ⟨count, body, by rw [hdrop24, hshape]⟩

/-- Witness for C6 on the concrete complete decompression fixture. -/
theorem c6_witness :
    (blockW.drop 20).take 4 = (shaW (shaW (blockW.drop 24))).take 4 ∧
    leDecode ((blockW.drop 16).take 4) = (blockW.drop 24).length ∧
    (∃ count body, blockW.drop 24 =
      msgW.block_header ++ pack_int_to_btc_varint count ++ body) :=
  c6_envelope_validity shaW siphW 0 msgW svcF [] [] [] blockW
    (fun x => by simp [shaW]) (Or.inl ⟨resW, rfl, rfl⟩) (by decide)

/-- C3: when full-cache decompression of a compact block succeeds with block
`B`, and decompression over a smaller cache (its short-id map a submap of the
full one) yields a partial result, then feeding that partial's slots and
missing indices to the resolver with the true transactions for those slots (in
missing-index order) returns exactly `B`, bytewise, and fills the slot list to
the full run's slots. -/
theorem c3_recovery_refines_full_decompression (sha256 : Bytes → Bytes)
    (siphash24 : Bytes → Bytes → Bytes) (magic : Nat) (msg : CompactBlockBtcMessage)
    (svcFull svcPart : TransactionService) (B : Bytes)
    (slots fullSlots : List (Option Bytes)) (missing fullMissing : List Nat)
    (recovered : List Bytes)
    (hsub : ∀ (s v : Bytes),
      build_short_id_map siphash24 (compact_block_sip_key sha256 msg) msg.short_ids svcPart s
        = some v →
      build_short_id_map siphash24 (compact_block_sip_key sha256 msg) msg.short_ids svcFull s
        = some v)
    (hfull : decompress_compact_block sha256 siphash24 magic msg svcFull =
      .ok ⟨true, some B, none, none⟩)
    (hpart : decompress_compact_block sha256 siphash24 magic msg svcPart =
      .ok ⟨false, none, some slots, some missing⟩)
    (hfs : fillLoop (build_short_id_map siphash24 (compact_block_sip_key sha256 msg)
        msg.short_ids svcFull) msg.prefilled_txns msg.short_ids
      (List.range (msg.prefilled_txns.length + msg.short_ids.length)) 0 =
        .ok (fullSlots, fullMissing))
    (hlen : recovered.length = missing.length)
    (htrue : ∀ (j k : Nat), missing[j]? = some k →
      ∃ v, recovered[j]? = some v ∧ fullSlots[k]? = some (some v)) :
    decompress_recovered_compact_block sha256 magic msg slots missing recovered =
      some (⟨true, some B⟩, fullSlots) := by
  obtain ⟨sF, mF, hflF, hcaseF⟩ := decompress_compact_block_ok_inv hfull
  rw [hfs] at hflF
  simp only [Except.ok.injEq, Prod.mk.injEq] at hflF
  obtain ⟨rfl, rfl⟩ := hflF
  rcases hcaseF with ⟨_, habs⟩ | ⟨hmF, hres⟩
  · exact absurd habs (by simp)
  have hB : B = assembleBlockMessage sha256 magic (msg.block_header ++
      pack_int_to_btc_varint (msg.prefilled_txns.length + msg.short_ids.length) ++
      (fullSlots.filterMap id).flatten) := by
    simpa using hres
  obtain ⟨sP, mP, hflP, hcaseP⟩ := decompress_compact_block_ok_inv hpart
  rcases hcaseP with ⟨hmP, hresP⟩ | ⟨_, habs⟩
  · have hsp : slots = sP ∧ missing = mP := by simpa using hresP
    obtain ⟨hsp1, hsp2⟩ := hsp
    subst hsp1
    subst hsp2
    obtain ⟨hlF, hmissF⟩ := fillLoop_range_ok _ _ _ _ _ hfs
    obtain ⟨hlP, hmissP⟩ := fillLoop_range_ok _ _ _ _ _ hflP
    rw [hmissF] at hmF
    have hallF := noneIndices_eq_nil_all_isSome hmF
    have hnd : missing.Nodup := by rw [hmissP]; exact noneIndices_nodup slots
    have hrange : ∀ k ∈ missing, k < slots.length := by
      intro k hk
      rw [hmissP] at hk
      exact noneIndices_lt_length hk
    have hpoint := fillLoop_mono msg.prefilled_txns msg.short_ids _ _ hsub
      (List.range (msg.prefilled_txns.length + msg.short_ids.length)) 0 hflP hfs
    have hwrite : writeRecovered slots missing recovered = fullSlots := by
      apply List.ext_getElem?
      intro k
      by_cases hk : k ∈ missing
      · obtain ⟨j, hj⟩ := List.getElem?_of_mem hk
        obtain ⟨v, hv, hfv⟩ := htrue j k hj
        rw [writeRecovered_getElem?_mem missing slots recovered j k v hnd hj hv
          (hrange k hk), hfv]
      · rw [writeRecovered_getElem?_not_mem missing slots recovered k hk]
        by_cases hklt : k < slots.length
        · obtain ⟨o, ho⟩ : ∃ o, slots[k]? = some o := ⟨_, List.getElem?_eq_getElem hklt⟩
          cases o with
          | none =>
            have hmem : k ∈ missing := by
              rw [hmissP]
              exact (noneIndices_getElem? slots k).mpr ho
            exact absurd hmem hk
          | some v =>
            rw [ho, hpoint k v ho]
        · rw [List.getElem?_eq_none (by omega : slots.length ≤ k),
            List.getElem?_eq_none (show fullSlots.length ≤ k by rw [hlF]; omega)]
    have hanyneg : ¬(missing.any fun i => decide (slots.length ≤ i)) = true := by
      simp only [List.any_eq_true, decide_eq_true_eq, not_exists, not_and]
      intro i hi
      have := hrange i hi
      omega
    have hallpos : (writeRecovered slots missing recovered).all Option.isSome = true := by
      rw [hwrite, List.all_eq_true]
      exact fun o ho => hallF o ho
    simp only [decompress_recovered_compact_block,
      if_neg (show ¬missing.length ≠ recovered.length by omega), if_neg hanyneg,
      if_pos hallpos]
    rw [hwrite, hB, hlF]
  · exact absurd habs (by simp)

/-- Witness for C3: the partial fixture (cache missing the short-id
transaction) recovered with the true transaction reproduces the full-cache
block bytes. -/
theorem c3_witness :
    decompress_recovered_compact_block shaW 0 msgW [some [5], none] [1] [[7, 7]] =
      some (⟨true, some blockW⟩, [some [5], some [7, 7]]) :=
  c3_recovery_refines_full_decompression shaW siphW 0 msgW svcF svcP blockW
    [some [5], none] [some [5], some [7, 7]] [1] [] [[7, 7]]
    (fun s v h => by simp [build_short_id_map, svcP] at h)
    rfl rfl rfl rfl
    (by
      intro j k hj
      cases j with
      | zero =>
        simp at hj
        subst hj
        exact ⟨[7, 7], rfl, rfl⟩
      | succ j => simp at hj)

end BxGateway
